import Mathlib

set_option linter.unusedSectionVars false
set_option linter.unusedVariables false

/-!
Shallow embedding of `src/soln/thinkstats2.py` (ThinkStats).

Python dicts mapping values to rational weights are modelled as association
lists in insertion order (`PyDict`).  Python floats are modelled as exact
rationals `ℚ`; where IEEE infinities/NaN matter (the odds transform) an
extended type `EF` is used.  Exceptions are modelled with `Except Err`.
-/

namespace ThinkStats

/-- Python exceptions raised by the embedded code. -/
inductive Err where
  | valueError
  | indexError
  | zeroDivision
  deriving DecidableEq, Repr

/-- Entries of a Python dict mapping values to rational weights, kept in
insertion order. -/
abbrev PyDict (α : Type) : Type := List (α × ℚ)

variable {α : Type} [DecidableEq α] {β : Type} {δ : Type}

/-- `d.get(x, 0)`: the weight bound to `x`, or `0` when `x` is absent. -/
def dget (d : PyDict α) (x : α) : ℚ :=
  match d with
  | [] => 0
  | (a, b) :: t => if a = x then b else dget t x

/-- `d[x] = y`: rebind `x` in place, or append a fresh binding. -/
def dset (d : PyDict α) (x : α) (y : ℚ) : PyDict α :=
  match d with
  | [] => [(x, y)]
  | (a, b) :: t => if a = x then (x, y) :: t else (a, b) :: dset t x y

/-- `_DictWrapper.Incr` (lines 343-350): `d[x] = d.get(x, 0) + term`. -/
def dincr (d : PyDict α) (x : α) (term : ℚ) : PyDict α :=
  dset d x (dget d x + term)

/-- `_DictWrapper.Total` (lines 371-374): sum of all weights. -/
def total (d : PyDict α) : ℚ :=
  (d.map Prod.snd).sum

/-- The dict's keys, in insertion order. -/
def dkeys (d : PyDict α) : List α :=
  d.map Prod.fst

theorem dget_dset (d : PyDict α) (x : α) (y : ℚ) (x' : α) :
    dget (dset d x y) x' = if x = x' then y else dget d x' := by
  induction d with
  | nil => by_cases h : x = x' <;> simp [dset, dget, h]
  | cons e t ih =>
      obtain ⟨a, b⟩ := e
      by_cases hax : a = x
      · subst hax
        by_cases h : a = x' <;> simp [dset, dget, h]
      · by_cases hax' : a = x'
        · subst hax'
          have hxa : ¬x = a := fun hh => hax hh.symm
          simp [dset, hax, dget, hxa]
        · simp [dset, hax, dget, hax', ih]

theorem total_dset (d : PyDict α) (x : α) (y : ℚ) :
    total (dset d x y) = total d - dget d x + y := by
  induction d with
  | nil => simp [dset, dget, total]
  | cons e t ih =>
      obtain ⟨a, b⟩ := e
      by_cases hax : a = x
      · subst hax
        simp [dset, dget, total]
        ring
      · simp [dset, hax, dget, total] at ih ⊢
        rw [ih]
        ring

theorem dget_dincr (d : PyDict α) (x : α) (v : ℚ) (x' : α) :
    dget (dincr d x v) x' = dget d x' + if x = x' then v else 0 := by
  rw [dincr, dget_dset]
  by_cases h : x = x'
  · subst h; simp
  · simp [h]

theorem total_dincr (d : PyDict α) (x : α) (v : ℚ) :
    total (dincr d x v) = total d + v := by
  rw [dincr, total_dset]
  ring

theorem dset_ne_nil (d : PyDict α) (x : α) (y : ℚ) : dset d x y ≠ [] := by
  cases d with
  | nil => simp [dset]
  | cons e t =>
      obtain ⟨a, b⟩ := e
      by_cases hax : a = x <;> simp [dset, hax]

theorem dincr_ne_nil (d : PyDict α) (x : α) (v : ℚ) : dincr d x v ≠ [] :=
  dset_ne_nil d x (dget d x + v)

/-- Value of a generic accumulation loop `for e in l: d[key e] += wt e`. -/
theorem dget_foldl_dincr (key : β → α) (wt : β → ℚ) (l : List β)
    (acc : PyDict α) (x : α) :
    dget (l.foldl (fun d e => dincr d (key e) (wt e)) acc) x
      = dget acc x + (l.map (fun e => if key e = x then wt e else 0)).sum := by
  induction l generalizing acc with
  | nil => simp
  | cons e t ih =>
      simp only [List.foldl_cons, List.map_cons, List.sum_cons]
      rw [ih, dget_dincr]
      ring

/-- Total of a generic accumulation loop `for e in l: d[key e] += wt e`. -/
theorem total_foldl_dincr (key : β → α) (wt : β → ℚ) (l : List β)
    (acc : PyDict α) :
    total (l.foldl (fun d e => dincr d (key e) (wt e)) acc)
      = total acc + (l.map wt).sum := by
  induction l generalizing acc with
  | nil => simp
  | cons e t ih =>
      simp only [List.foldl_cons, List.map_cons, List.sum_cons]
      rw [ih, total_dincr]
      ring

/-- `collections.Counter(l)`: counts occurrences, keys in first-occurrence
order (used by `_DictWrapper.__init__`, line 156). -/
def Counter (l : List α) : PyDict α :=
  l.foldl (fun d x => dincr d x 1) []

/-- A `Pmf`/`Hist`/`Suite` state: the dict `d` and the `log` transform flag
set up by `_DictWrapper.__init__` (lines 137-140). -/
structure Pmf (α : Type) : Type where
  d : PyDict α
  log : Bool
  deriving DecidableEq

/-- Rescale every weight of a dict by `c` (the loop of `Pmf.Normalize`,
lines 528-529). -/
def dscale (d : PyDict α) (c : ℚ) : PyDict α :=
  d.map (fun e => (e.1, e.2 * c))

/-- `Pmf.Normalize` (lines 512-531): raises if under a log transform or if
the total is zero; otherwise multiplies every weight by `fraction / total`
and returns the new state together with the previous total. -/
def Pmf.Normalize (p : Pmf α) (fraction : ℚ) : Except Err (Pmf α × ℚ) :=
  if p.log then .error .valueError
  else if total p.d = 0 then .error .valueError
  else .ok (⟨dscale p.d (fraction / total p.d), p.log⟩, total p.d)

/-- Tail of `_DictWrapper.__init__` for a `Pmf` (lines 137-159): the dict is
filled from the source, `log` is `False`, and when the dict is non-empty the
new `Pmf` is normalized. -/
def pmfInit (d : PyDict α) : Except Err (Pmf α) :=
  if 0 < d.length then
    match Pmf.Normalize ⟨d, false⟩ 1 with
    | .error e => .error e
    | .ok (p, _) => .ok p
  else .ok ⟨d, false⟩

/-- `Pmf(list)`: the source is counted with `Counter` (line 156). -/
def mkPmfOfList (l : List α) : Except Err (Pmf α) :=
  pmfInit (Counter l)

/-- `Pmf(dict)`: the dict's items are copied (line 149). -/
def mkPmfOfDict (d : PyDict α) : Except Err (Pmf α) :=
  pmfInit d

/-- `Pmf(other_pmf)`: the source distribution's items are copied
(lines 150-151). -/
def mkPmfOfPmf (q : Pmf α) : Except Err (Pmf α) :=
  pmfInit q.d

/-- `Pmf.AddPmf` (lines 651-662): `pmf[v1 + v2] += p1 * p2` over all pairs
of items, starting from a fresh empty `Pmf`. -/
def AddPmf (p q : PyDict ℚ) : PyDict ℚ :=
  p.foldl
    (fun acc e1 => q.foldl (fun a e2 => dincr a (e1.1 + e2.1) (e1.2 * e2.2)) acc)
    []

/-- `Pmf.SubPmf` (lines 691-702): `pmf.Incr(v1 - v2, p1 * p2)` over all
pairs of items, starting from a fresh empty `Pmf`. -/
def SubPmf (p q : PyDict ℚ) : PyDict ℚ :=
  p.foldl
    (fun acc e1 => q.foldl (fun a e2 => dincr a (e1.1 - e2.1) (e1.2 * e2.2)) acc)
    []

/-- Sum of `p1 * p2` over all pairs of items whose keys combine to `w`
under `op`. -/
def convSum (op : ℚ → ℚ → ℚ) (p q : PyDict ℚ) (w : ℚ) : ℚ :=
  (p.map (fun e1 =>
    (q.map (fun e2 => if op e1.1 e2.1 = w then e1.2 * e2.2 else 0)).sum)).sum

theorem dget_convolve (op : ℚ → ℚ → ℚ) (p q : PyDict ℚ) (acc : PyDict ℚ)
    (w : ℚ) :
    dget (p.foldl
      (fun a1 e1 => q.foldl (fun a e2 => dincr a (op e1.1 e2.1) (e1.2 * e2.2)) a1)
      acc) w
      = dget acc w + convSum op p q w := by
  induction p generalizing acc with
  | nil => simp [convSum]
  | cons e1 t ih =>
      simp only [List.foldl_cons, convSum, List.map_cons, List.sum_cons]
      rw [ih]
      rw [dget_foldl_dincr (fun e2 => op e1.1 e2.1) (fun e2 => e1.2 * e2.2) q acc w]
      simp [convSum]
      ring

theorem sum_map_mul_snd (c : ℚ) (q : PyDict ℚ) :
    (q.map (fun e2 : ℚ × ℚ => c * e2.2)).sum = c * (q.map Prod.snd).sum := by
  induction q with
  | nil => simp
  | cons f s ihq =>
      simp only [List.map_cons, List.sum_cons, ihq]
      ring

theorem total_convolve (op : ℚ → ℚ → ℚ) (p q : PyDict ℚ) (acc : PyDict ℚ) :
    total (p.foldl
      (fun a1 e1 => q.foldl (fun a e2 => dincr a (op e1.1 e2.1) (e1.2 * e2.2)) a1)
      acc)
      = total acc + total p * total q := by
  induction p generalizing acc with
  | nil => simp [total]
  | cons e1 t ih =>
      simp only [List.foldl_cons]
      rw [ih]
      rw [total_foldl_dincr (fun e2 => op e1.1 e2.1) (fun e2 => e1.2 * e2.2) q acc]
      simp only [total, List.map_cons, List.sum_cons]
      rw [sum_map_mul_snd e1.2 q]
      ring

/-- C1: `AddPmf` (resp. `SubPmf`) builds a fresh Pmf in which, for every
pair `(v1, p1)` of the left operand and `(v2, p2)` of the right operand,
`p1 * p2` is accumulated onto the key `v1 + v2` (resp. `v1 - v2`); no
renormalization happens, so the total is the product of the operand totals
(in particular 1 when both operands total 1); adding the point mass `{0: 1}`
to `{v: 1}` yields exactly `{v: 1}` and subtracting yields `{-v: 1}`. -/
theorem addPmf_subPmf_spec (p q : PyDict ℚ) (v : ℚ) :
    (∀ w, dget (AddPmf p q) w = convSum (fun a b => a + b) p q w)
    ∧ (∀ w, dget (SubPmf p q) w = convSum (fun a b => a - b) p q w)
    ∧ total (AddPmf p q) = total p * total q
    ∧ total (SubPmf p q) = total p * total q
    ∧ (total p = 1 → total q = 1 →
        total (AddPmf p q) = 1 ∧ total (SubPmf p q) = 1)
    ∧ AddPmf [(0, 1)] [(v, 1)] = [(v, 1)]
    ∧ SubPmf [(0, 1)] [(v, 1)] = [(-v, 1)] := by
  refine ⟨?_, ?_, ?_, ?_, ?_, ?_, ?_⟩
  · intro w
    rw [AddPmf, dget_convolve]
    simp [dget]
  · intro w
    rw [SubPmf, dget_convolve]
    simp [dget]
  · rw [AddPmf, total_convolve]
    simp [total]
  · rw [SubPmf, total_convolve]
    simp [total]
  · intro hp hq
    constructor
    · rw [AddPmf, total_convolve, hp, hq]
      simp [total]
    · rw [SubPmf, total_convolve, hp, hq]
      simp [total]
  · simp [AddPmf, dincr, dset, dget]
  · simp [SubPmf, dincr, dset, dget]

theorem addPmf_subPmf_spec_witness :
    AddPmf [((0 : ℚ), (1 : ℚ))] [((5 : ℚ), (1 : ℚ))] = [((5 : ℚ), (1 : ℚ))]
    ∧ total (AddPmf [((1 : ℚ), (1/2 : ℚ)), (2, 1/2)]
        [((1 : ℚ), (1/2 : ℚ)), (2, 1/2)]) = 1 := by
  refine ⟨(addPmf_subPmf_spec [(0, 1)] [(5, 1)] 5).2.2.2.2.2.1, ?_⟩
  have h := (addPmf_subPmf_spec [((1 : ℚ), (1/2 : ℚ)), (2, 1/2)]
    [((1 : ℚ), (1/2 : ℚ)), (2, 1/2)] 0).2.2.2.2.1
  exact (h (by norm_num [total]) (by norm_num [total])).1

/-- `Hist.Subtract` (lines 424-427): `for val, freq in other.Items():
self.Incr(val, -freq)`. -/
def Hist.Subtract (h g : PyDict α) : PyDict α :=
  g.foldl (fun acc e => dincr acc e.1 (-e.2)) h

theorem sum_ite_key_zero (g : PyDict α) (v : α) (hv : v ∉ dkeys g) :
    (g.map (fun e => if e.1 = v then -e.2 else 0)).sum = 0 := by
  induction g with
  | nil => simp
  | cons e t ih =>
      simp only [dkeys, List.map_cons, List.mem_cons, not_or] at hv
      simp only [List.map_cons, List.sum_cons]
      have he : ¬e.1 = v := fun hh => hv.1 hh.symm
      rw [ih (by simpa [dkeys] using hv.2)]
      simp [he]

theorem sum_ite_key_neg (g : PyDict α) (v : α) (hn : (dkeys g).Nodup) :
    (g.map (fun e => if e.1 = v then -e.2 else 0)).sum = -(dget g v) := by
  induction g with
  | nil => simp [dget]
  | cons e t ih =>
      simp only [dkeys, List.map_cons, List.nodup_cons] at hn
      simp only [List.map_cons, List.sum_cons]
      by_cases he : e.1 = v
      · subst he
        rw [sum_ite_key_zero t e.1 (by simpa [dkeys] using hn.1)]
        simp [dget]
      · rw [ih (by simpa [dkeys] using hn.2)]
        simp [dget, he]

/-- C9: for histograms `h` and `g` (`g` a genuine dict, its keys distinct),
`h.Subtract(g)` leaves the frequency at each value `v` equal to `h`'s
previous frequency minus `g`'s frequency at `v`; nothing clamps at zero, so
the result can carry negative frequencies. -/
theorem hist_subtract_spec (h g : PyDict α) (hg : (dkeys g).Nodup) :
    ∀ v, dget (Hist.Subtract h g) v = dget h v - dget g v := by
  intro v
  rw [Hist.Subtract, dget_foldl_dincr Prod.fst (fun e => -e.2) g h v,
    sum_ite_key_neg g v hg]
  ring

/-- Witness for C9 at a concrete input where the subtrahend's count exceeds
the minuend's, producing a negative frequency. -/
theorem hist_subtract_spec_witness :
    dget (Hist.Subtract [((5 : ℚ), 1)] [((5 : ℚ), 3)]) 5 = -2 := by
  have h := hist_subtract_spec [((5 : ℚ), 1)] [((5 : ℚ), 3)] (by simp [dkeys]) 5
  rw [h]
  norm_num [dget]

theorem total_dscale (d : PyDict α) (c : ℚ) :
    total (dscale d c) = total d * c := by
  induction d with
  | nil => simp [dscale, total]
  | cons e t ih =>
      simp only [dscale, total, List.map_cons, List.sum_cons] at ih ⊢
      rw [ih]
      ring

theorem dget_dscale (d : PyDict α) (c : ℚ) (x : α) :
    dget (dscale d c) x = dget d x * c := by
  induction d with
  | nil => simp [dscale, dget]
  | cons e t ih =>
      simp only [dscale, List.map_cons] at ih ⊢
      by_cases he : e.1 = x <;> simp [dget, he, ih]

theorem total_Counter_aux (l : List α) (acc : PyDict α) :
    total (l.foldl (fun d x => dincr d x 1) acc) = total acc + l.length := by
  induction l generalizing acc with
  | nil => simp
  | cons x t ih =>
      simp only [List.foldl_cons]
      rw [ih, total_dincr]
      simp only [List.length_cons]
      push_cast
      ring

theorem total_Counter (l : List α) : total (Counter l) = l.length := by
  rw [Counter, total_Counter_aux]
  simp [total]

theorem foldl_dincr_acc_ne_nil (l : List α) (acc : PyDict α) (h : acc ≠ []) :
    l.foldl (fun d x => dincr d x 1) acc ≠ [] := by
  induction l generalizing acc with
  | nil => simpa
  | cons x t ih =>
      simp only [List.foldl_cons]
      exact ih _ (dincr_ne_nil acc x 1)

theorem Counter_ne_nil (l : List α) (h : l ≠ []) : Counter l ≠ [] := by
  cases l with
  | nil => exact absurd rfl h
  | cons x t =>
      rw [Counter, List.foldl_cons]
      exact foldl_dincr_acc_ne_nil t _ (dincr_ne_nil [] x 1)

theorem pmfInit_ok (d : PyDict α) (hd : d ≠ []) (ht : total d ≠ 0) :
    pmfInit d = .ok ⟨dscale d (1 / total d), false⟩ := by
  rw [pmfInit, if_pos (List.length_pos.mpr hd), Pmf.Normalize]
  simp [ht]

/-- C5: `Pmf.Normalize(fraction)` fails (with `ValueError`) exactly when the
map is under a log transform or its total weight is zero; otherwise it
multiplies every weight by `fraction / total`, making the new total exactly
`fraction`, and returns the total weight as it was before normalizing. -/
theorem pmf_normalize_spec (p : Pmf α) (f : ℚ) :
    (Pmf.Normalize p f = .error .valueError ↔ (p.log = true ∨ total p.d = 0))
    ∧ (p.log = false → total p.d ≠ 0 →
        Pmf.Normalize p f = .ok (⟨dscale p.d (f / total p.d), false⟩, total p.d)
        ∧ total (dscale p.d (f / total p.d)) = f
        ∧ ∀ x, dget (dscale p.d (f / total p.d)) x
            = dget p.d x * (f / total p.d)) := by
  constructor
  · by_cases hl : p.log
    · simp [Pmf.Normalize, hl]
    · by_cases ht : total p.d = 0 <;> simp [Pmf.Normalize, hl, ht]
  · intro hl ht
    refine ⟨?_, ?_, fun x => dget_dscale p.d (f / total p.d) x⟩
    · rw [Pmf.Normalize]
      simp [hl, ht]
    · rw [total_dscale]
      field_simp

/-- Witness for C5: a one-point map with weight 4 normalizes to total 1 and
reports the previous total 4; the zero-total map raises. -/
theorem pmf_normalize_spec_witness :
    Pmf.Normalize (⟨[((3 : ℚ), 4)], false⟩ : Pmf ℚ) 1
      = .ok (⟨[((3 : ℚ), 1)], false⟩, 4)
    ∧ Pmf.Normalize (⟨[((3 : ℚ), 0)], false⟩ : Pmf ℚ) 1
      = .error .valueError := by
  constructor
  · have h := ((pmf_normalize_spec (⟨[((3 : ℚ), 4)], false⟩ : Pmf ℚ) 1).2
      (by simp) (by norm_num [total])).1
    rw [h]
    norm_num [total, dscale]
  · exact (pmf_normalize_spec (⟨[((3 : ℚ), 0)], false⟩ : Pmf ℚ) 1).1.mpr
      (Or.inr (by norm_num [total]))

/-- C4 counterexample: the claim says a `Pmf` constructed from an
already-probabilistic source is not renormalized at construction, but
`Pmf.__init__` normalizes every non-empty `Pmf`: constructing from the
`Pmf` `{1: 2}` yields `{1: 1}`, not `{1: 2}`. -/
theorem pmf_init_renormalizes_counterexample :
    mkPmfOfPmf (⟨[((1 : ℚ), 2)], false⟩ : Pmf ℚ) = .ok ⟨[((1 : ℚ), 1)], false⟩
    ∧ mkPmfOfPmf (⟨[((1 : ℚ), 2)], false⟩ : Pmf ℚ)
        ≠ .ok ⟨[((1 : ℚ), 2)], false⟩ := by
  have h1 : mkPmfOfPmf (⟨[((1 : ℚ), 2)], false⟩ : Pmf ℚ)
      = .ok ⟨[((1 : ℚ), 1)], false⟩ := by
    rw [mkPmfOfPmf, pmfInit_ok [((1 : ℚ), 2)] (by simp) (by norm_num [total])]
    norm_num [total, dscale]
  refine ⟨h1, ?_⟩
  intro h
  rw [h1] at h
  simp only [Except.ok.injEq, Pmf.mk.injEq, List.cons.injEq, Prod.mk.injEq] at h
  exact absurd h.1.1.2 (by norm_num)

/-- C4 amended: a `Pmf` constructed from any non-empty source — a raw
collection of samples, a weight dict with nonzero total, or another
distribution with nonzero total — is renormalized at construction so its
weights sum to exactly 1 (there is no suppression parameter); only a `Pmf`
constructed from an empty source is left untouched. -/
theorem pmf_init_normalization (l : List α) (d : PyDict α) (q : Pmf α)
    (hl : l ≠ []) (hd : d ≠ []) (hdt : total d ≠ 0)
    (hq : q.d ≠ []) (hqt : total q.d ≠ 0) :
    (∃ p, mkPmfOfList l = .ok p ∧ total p.d = 1)
    ∧ (∃ p, mkPmfOfDict d = .ok p ∧ total p.d = 1)
    ∧ (∃ p, mkPmfOfPmf q = .ok p ∧ total p.d = 1)
    ∧ mkPmfOfList ([] : List α) = .ok ⟨[], false⟩
    ∧ mkPmfOfDict ([] : PyDict α) = .ok ⟨[], false⟩ := by
  have key : ∀ d0 : PyDict α, d0 ≠ [] → total d0 ≠ 0 →
      ∃ p, pmfInit d0 = .ok p ∧ total p.d = 1 := by
    intro d0 h0 ht0
    refine ⟨⟨dscale d0 (1 / total d0), false⟩, pmfInit_ok d0 h0 ht0, ?_⟩
    rw [total_dscale]
    field_simp
  have hcnt : total (Counter l) ≠ 0 := by
    rw [total_Counter]
    exact Nat.cast_ne_zero.mpr (List.length_pos.mpr hl).ne'
  refine ⟨key (Counter l) (Counter_ne_nil l hl) hcnt, key d hd hdt,
    key q.d hq hqt, ?_, ?_⟩
  · rw [mkPmfOfList]
    rfl
  · rw [mkPmfOfDict]
    rfl

/-- Witness for C4 amended at concrete inputs. -/
theorem pmf_init_normalization_witness :
    (∃ p, mkPmfOfList [(7 : ℚ), 7, 8] = .ok p ∧ total p.d = 1)
    ∧ (∃ p, mkPmfOfPmf (⟨[((1 : ℚ), 2)], false⟩ : Pmf ℚ)
        = .ok p ∧ total p.d = 1) := by
  have h := pmf_init_normalization [(7 : ℚ), 7, 8] [((0 : ℚ), 1)]
    (⟨[((1 : ℚ), 2)], false⟩ : Pmf ℚ) (by simp) (by simp)
    (by norm_num [total]) (by simp) (by norm_num [total])
  exact ⟨h.1, h.2.2.1⟩

/-- `HypothesisTest` (lines 2969-3026): `data`, the subclass hook
`TestStatistic`, and `RunModel` modelled as a stream of simulated datasets
(the `i`-th call of the random `RunModel` returns `RunModel i`). -/
structure HypothesisTest (δ : Type) : Type where
  data : δ
  TestStatistic : δ → ℚ
  RunModel : ℕ → δ

/-- Mutable fields of a `HypothesisTest` instance. -/
structure HTState : Type where
  actual : ℚ
  test_stats : Option (List ℚ)

/-- `HypothesisTest.__init__` (lines 2972-2981): freezes
`self.actual = self.TestStatistic(data)` and sets `self.test_stats = None`. -/
def HypothesisTest.init (t : HypothesisTest δ) : HTState :=
  ⟨t.TestStatistic t.data, none⟩

/-- `HypothesisTest.PValue` (lines 2983-2994): stores `iters` simulated
statistics, then returns `count / iters` where `count` is the number of
simulated statistics `>=` the frozen actual statistic; when `iters = 0` the
division raises `ZeroDivisionError` (after `test_stats` is assigned). -/
def HypothesisTest.PValue (t : HypothesisTest δ) (st : HTState) (iters : ℕ) :
    HTState × Except Err ℚ :=
  let stats := (List.range iters).map (fun i => t.TestStatistic (t.RunModel i))
  let st2 : HTState := ⟨st.actual, some stats⟩
  if iters = 0 then (st2, .error .zeroDivision)
  else (st2, .ok ((stats.countP (fun x => decide (st.actual ≤ x)) : ℚ) / (iters : ℚ)))

/-- A concrete `HypothesisTest`: constant-zero statistic and model. -/
def trivialTest : HypothesisTest ℚ :=
  ⟨0, fun _ => 0, fun _ => 0⟩

/-- C3 counterexample: the claim quantifies over every iteration count, but
`PValue(0)` does not return `(count) / iters` — the division `count / 0`
raises `ZeroDivisionError`. -/
theorem pvalue_zero_iters_counterexample :
    (trivialTest.PValue trivialTest.init 0).2 = .error .zeroDivision := rfl

/-- C3 amended: for every concrete `HypothesisTest` and every iteration
count `iters >= 1`, `PValue(iters)` leaves the actual statistic as the value
computed once at construction, stores exactly `iters` simulated statistics,
and returns `(number of simulated statistics >= actual) / iters`. -/
theorem hypothesis_test_pvalue_spec (t : HypothesisTest δ) (st : HTState)
    (iters : ℕ) (h : 0 < iters) :
    t.init.actual = t.TestStatistic t.data
    ∧ (t.PValue st iters).1.actual = st.actual
    ∧ (t.PValue st iters).1.test_stats
        = some ((List.range iters).map (fun i => t.TestStatistic (t.RunModel i)))
    ∧ ∃ stats, (t.PValue st iters).1.test_stats = some stats
        ∧ stats.length = iters
        ∧ (t.PValue st iters).2
            = .ok ((stats.countP (fun x => decide (st.actual ≤ x)) : ℚ)
                / (iters : ℚ)) := by
  have hne : ¬iters = 0 := h.ne'
  refine ⟨rfl, ?_, ?_, ?_⟩
  · simp only [HypothesisTest.PValue, if_neg hne]
  · simp only [HypothesisTest.PValue, if_neg hne]
  · refine ⟨(List.range iters).map (fun i => t.TestStatistic (t.RunModel i)),
      ?_, ?_, ?_⟩
    · simp only [HypothesisTest.PValue, if_neg hne]
    · simp
    · simp only [HypothesisTest.PValue, if_neg hne]

/-- Witness for C3 amended: the trivial test at 3 iterations keeps its
actual statistic 0 and returns p-value 3/3 = 1. -/
theorem hypothesis_test_pvalue_spec_witness :
    (trivialTest.PValue trivialTest.init 3).1.actual = 0
    ∧ (trivialTest.PValue trivialTest.init 3).2 = .ok 1 := by
  have h := hypothesis_test_pvalue_spec trivialTest trivialTest.init 3
    (by norm_num)
  refine ⟨?_, ?_⟩
  · rw [h.2.1]
    rfl
  · obtain ⟨stats, hs, hlen, hv⟩ := h.2.2.2
    have h3 : (trivialTest.PValue trivialTest.init 3).1.test_stats
        = some [(0 : ℚ), 0, 0] := by
      rw [h.2.2.1]
      rfl
    rw [hs] at h3
    have hstats : stats = [(0 : ℚ), 0, 0] := Option.some.inj h3
    subst hstats
    rw [hv]
    norm_num [List.countP_cons, trivialTest, HypothesisTest.init]

/-- A Python float as used by the odds transform: a finite (exact) value,
positive infinity, or NaN. -/
inductive EF : Type where
  | fin : ℚ → EF
  | inf : EF
  | nan : EF
  deriving DecidableEq, Repr

/-- `Odds(p)` (lines 50-65): `Odds(1)` is defined as `float("inf")`;
otherwise `p / (1 - p)`.  On the IEEE specials: `inf == 1` is false and
`inf / (1 - inf) = inf / -inf = nan`; any arithmetic on NaN gives NaN. -/
def Odds (p : EF) : EF :=
  match p with
  | .fin q => if q = 1 then .inf else .fin (q / (1 - q))
  | .inf => .nan
  | .nan => .nan

/-- `Probability(o)` (lines 68-77): `o / (o + 1)`.  For `o = inf` IEEE gives
`inf / inf = nan`; for finite `o = -1` Python's float division raises
`ZeroDivisionError`; NaN propagates. -/
def Probability (o : EF) : Except Err EF :=
  match o with
  | .fin q => if q = -1 then .error .zeroDivision else .ok (.fin (q / (q + 1)))
  | .inf => .ok .nan
  | .nan => .ok .nan

/-- Python truthiness of a float: zero is falsy; `inf` and `nan` are truthy. -/
def EF.truthy : EF → Bool
  | .fin q => decide (q ≠ 0)
  | .inf => true
  | .nan => true

/-- `Suite.MakeOdds` (lines 1477-1486): each hypothesis with truthy
probability is rebound to `Odds(prob)`; falsy (zero) hypotheses are
removed. -/
def MakeOdds (s : List (α × EF)) : List (α × EF) :=
  (s.filter (fun e => e.2.truthy)).map (fun e => (e.1, Odds e.2))

/-- `Suite.MakeProbs` (lines 1488-1491): each hypothesis is rebound to
`Probability(odds)`; a raised exception aborts the loop. -/
def MakeProbs : List (α × EF) → Except Err (List (α × EF))
  | [] => .ok []
  | e :: t =>
      match Probability e.2 with
      | .error err => .error err
      | .ok v =>
          match MakeProbs t with
          | .error err => .error err
          | .ok t2 => .ok ((e.1, v) :: t2)

/-- C8 counterexample: a hypothesis with probability exactly 1 is mapped by
`MakeOdds` to the infinite-odds sentinel, but `MakeProbs` then computes
`inf / (inf + 1) = inf / inf = NaN`, not 1 — the round trip does not recover
`p = 1`. -/
theorem makeodds_roundtrip_counterexample :
    MakeProbs (MakeOdds [((0 : ℕ), EF.fin 1)]) = .ok [((0 : ℕ), EF.nan)]
    ∧ EF.nan ≠ EF.fin 1 := by
  constructor
  · rfl
  · intro h
    cases h

/-- C8 amended: `MakeOdds` maps each hypothesis with probability
`p ∈ (0, 1)` to odds `p / (1 - p)` and maps `p = 1` to the designated
infinite-odds sentinel rather than failing; a subsequent `MakeProbs`
recovers the original probability of every hypothesis with `p ∈ (0, 1)`
exactly, but a hypothesis with `p = 1` comes back as NaN
(`inf / (inf + 1)`), not 1, so the transform pair is lossless precisely on
suites whose probabilities all lie strictly between 0 and 1. -/
theorem makeodds_makeprobs_spec (s : List (α × EF))
    (hs : ∀ e ∈ s, ∃ q : ℚ, e.2 = EF.fin q ∧ 0 < q ∧ q < 1) :
    MakeProbs (MakeOdds s) = .ok s
    ∧ Odds (EF.fin 1) = EF.inf
    ∧ Probability EF.inf = .ok EF.nan := by
  refine ⟨?_, rfl, rfl⟩
  induction s with
  | nil => rfl
  | cons e t ih =>
      obtain ⟨q, hq, hq0, hq1⟩ := hs e (List.mem_cons_self e t)
      have ht := ih (fun f hf => hs f (List.mem_cons_of_mem e hf))
      have htr : e.2.truthy = true := by
        rw [hq]
        simp [EF.truthy, hq0.ne']
      have hodds : Odds e.2 = EF.fin (q / (1 - q)) := by
        rw [hq, Odds]
        simp [hq1.ne]
      have hpos : 0 < q / (1 - q) := div_pos hq0 (by linarith)
      have hprob : Probability (EF.fin (q / (1 - q))) = .ok (EF.fin q) := by
        rw [Probability, if_neg (by intro h; rw [h] at hpos; norm_num at hpos)]
        have h1q : (1 : ℚ) - q ≠ 0 := by linarith
        have : q / (1 - q) / (q / (1 - q) + 1) = q := by
          field_simp
        rw [this]
      rw [MakeOdds, List.filter_cons, if_pos htr, List.map_cons, MakeProbs]
      rw [hodds, hprob]
      rw [MakeOdds] at ht
      rw [ht]
      show Except.ok ((e.1, EF.fin q) :: t) = Except.ok (e :: t)
      rw [← hq]

/-- Witness for C8 amended on the suite `{A: 3/4, B: 1/4}`. -/
theorem makeodds_makeprobs_spec_witness :
    MakeProbs (MakeOdds [((0 : ℕ), EF.fin (3/4)), ((1 : ℕ), EF.fin (1/4))])
      = .ok [((0 : ℕ), EF.fin (3/4)), ((1 : ℕ), EF.fin (1/4))] := by
  refine (makeodds_makeprobs_spec
    [((0 : ℕ), EF.fin (3/4)), ((1 : ℕ), EF.fin (1/4))] ?_).1
  intro e he
  simp only [List.mem_cons, List.not_mem_nil, or_false] at he
  rcases he with h | h
  · exact ⟨3/4, by rw [h], by norm_num, by norm_num⟩
  · exact ⟨1/4, by rw [h], by norm_num, by norm_num⟩

/-- Insert a pair into a list sorted by key (tuples with distinct keys sort
by key, as `sorted(dw.Items())` does). -/
def insortPair [LinearOrder α] (e : α × ℚ) : List (α × ℚ) → List (α × ℚ)
  | [] => [e]
  | f :: t => if e.1 ≤ f.1 then e :: f :: t else f :: insortPair e t

/-- `sorted(dw.Items())` (line 1030): the dict's items in ascending key
order (keys of a dict are distinct, so the value component never breaks a
tie). -/
def sortPairs [LinearOrder α] (d : PyDict α) : List (α × ℚ) :=
  d.foldr insortPair []

/-- `np.cumsum` with a running accumulator. -/
def cumsumFrom (acc : ℚ) : List ℚ → List ℚ
  | [] => []
  | x :: t => (acc + x) :: cumsumFrom (acc + x) t

/-- `np.cumsum(freqs)` (line 1032). -/
def cumsum (l : List ℚ) : List ℚ :=
  cumsumFrom 0 l

/-- `Cdf.__init__` from a weighted map (lines 1020-1033): empty map gives
empty arrays; otherwise sort the items by key, take the cumulative sums of
the weights, and divide by the final cumulative sum (`ps /= ps[-1]`). -/
def mkCdfOfDict [LinearOrder α] (d : PyDict α) : List α × List ℚ :=
  if d = [] then ([], [])
  else
    let s := sortPairs d
    let cum := cumsum (s.map Prod.snd)
    (s.map Prod.fst, cum.map (fun p => p / cum.getLastD 0))

/-- `Cdf.__init__` from a raw sequence (line 1023): the sequence is counted
into a `Hist` first. -/
def mkCdfOfList [LinearOrder α] (l : List α) : List α × List ℚ :=
  mkCdfOfDict (Counter l)

/-- `bisect.bisect(l, x)` on an ascending list: the number of elements
`<= x`. -/
def bisectRight (l : List ℚ) (x : ℚ) : ℕ :=
  l.countP (fun y => decide (y ≤ x))

/-- `bisect.bisect_left(l, x)` on an ascending list: the number of elements
`< x`. -/
def bisectLeft (l : List ℚ) (x : ℚ) : ℕ :=
  l.countP (fun y => decide (y < x))

/-- `Cdf.Prob` (lines 1119-1132): `self.xs[0]` raises `IndexError` on the
empty Cdf; otherwise return 0 below the least value, else
`ps[bisect.bisect(xs, x) - 1]`. -/
def CdfProb (xs ps : List ℚ) (x : ℚ) : Except Err ℚ :=
  match xs with
  | [] => .error .indexError
  | x0 :: _ =>
      if x < x0 then .ok 0
      else
        match ps.get? (bisectRight xs x - 1) with
        | some p => .ok p
        | none => .error .indexError

/-- `Cdf.Value` (lines 1149-1162): raises `ValueError` outside `[0, 1]`,
otherwise returns `xs[bisect.bisect_left(ps, p)]`, which raises
`IndexError` when the index is out of range (in particular on the empty
Cdf). -/
def CdfValue (xs ps : List ℚ) (p : ℚ) : Except Err ℚ :=
  if p < 0 ∨ 1 < p then .error .valueError
  else
    match xs.get? (bisectLeft ps p) with
    | some x => .ok x
    | none => .error .indexError

/-- C10: the Cdf built from an empty collection has empty `xs` and `ps`;
on it `Prob(x)` fails with `IndexError` for every `x`, and `Value(p)` fails
with `IndexError` for every `p ∈ [0, 1]`. -/
theorem empty_cdf_spec (x p : ℚ) (h0 : 0 ≤ p) (h1 : p ≤ 1) :
    mkCdfOfList ([] : List ℚ) = ([], [])
    ∧ CdfProb (mkCdfOfList ([] : List ℚ)).1 (mkCdfOfList ([] : List ℚ)).2 x
        = .error .indexError
    ∧ CdfValue (mkCdfOfList ([] : List ℚ)).1 (mkCdfOfList ([] : List ℚ)).2 p
        = .error .indexError := by
  refine ⟨rfl, rfl, ?_⟩
  show CdfValue [] [] p = .error .indexError
  rw [CdfValue, if_neg (by push_neg; exact ⟨h0, h1⟩)]
  rfl

/-- Witness for C10 at `x = 5`, `p = 1/2`. -/
theorem empty_cdf_spec_witness :
    CdfProb (mkCdfOfList ([] : List ℚ)).1 (mkCdfOfList ([] : List ℚ)).2 5
        = .error .indexError
    ∧ CdfValue (mkCdfOfList ([] : List ℚ)).1 (mkCdfOfList ([] : List ℚ)).2 (1/2)
        = .error .indexError := by
  have h := empty_cdf_spec 5 (1/2) (by norm_num) (by norm_num)
  exact ⟨h.2.1, h.2.2⟩

/-- C6 counterexample: a weighted map may carry a negative weight (e.g.
after `Hist.Subtract`); from `{0: 1, 1: -1, 2: 1}` the construction yields
`ps = [1, 0, 1]`, which is not non-decreasing, so the claimed invariant
fails for a Cdf built from this weighted map. -/
theorem cdf_nondecreasing_counterexample :
    mkCdfOfDict [((0 : ℚ), 1), (1, -1), (2, 1)] = ([0, 1, 2], [1, 0, 1])
    ∧ ¬ List.Sorted (· ≤ ·) (mkCdfOfDict [((0 : ℚ), 1), (1, -1), (2, 1)]).2 := by
  have he : mkCdfOfDict [((0 : ℚ), 1), (1, -1), (2, 1)]
      = ([0, 1, 2], [1, 0, 1]) := by
    norm_num [mkCdfOfDict, sortPairs, insortPair, cumsum, cumsumFrom]
    intro h
    simp at h
  refine ⟨he, ?_⟩
  intro h
  have h2 : List.Sorted (· ≤ ·) [(1 : ℚ), 0, 1] := by
    rw [he] at h
    exact h
  rw [List.sorted_cons] at h2
  have := h2.1 0 (by simp)
  norm_num at this

theorem insortPair_perm [LinearOrder α] (e : α × ℚ) (l : List (α × ℚ)) :
    List.Perm (insortPair e l) (e :: l) := by
  induction l with
  | nil => exact List.Perm.refl [e]
  | cons f t ih =>
      rw [insortPair]
      by_cases h : e.1 ≤ f.1
      · rw [if_pos h]
      · rw [if_neg h]
        exact (List.Perm.cons f ih).trans (List.Perm.swap e f t)

theorem sortPairs_perm [LinearOrder α] (d : PyDict α) :
    List.Perm (sortPairs d) d := by
  induction d with
  | nil => exact List.Perm.refl []
  | cons e t ih =>
      rw [sortPairs, List.foldr_cons]
      exact (insortPair_perm e _).trans (List.Perm.cons e ih)

theorem insortPair_sorted [LinearOrder α] (e : α × ℚ) (l : List (α × ℚ))
    (hl : List.Sorted (fun a b : α × ℚ => a.1 ≤ b.1) l) :
    List.Sorted (fun a b : α × ℚ => a.1 ≤ b.1) (insortPair e l) := by
  induction l with
  | nil => simp [insortPair]
  | cons f t ih =>
      rw [List.sorted_cons] at hl
      rw [insortPair]
      by_cases h : e.1 ≤ f.1
      · rw [if_pos h, List.sorted_cons]
        refine ⟨?_, List.sorted_cons.mpr hl⟩
        intro b hb
        rcases List.mem_cons.mp hb with hbf | hbt
        · rw [hbf]
          exact h
        · exact le_trans h (hl.1 b hbt)
      · rw [if_neg h, List.sorted_cons]
        refine ⟨?_, ih hl.2⟩
        intro b hb
        rcases List.mem_cons.mp ((insortPair_perm e t).mem_iff.mp hb) with hbe | hbt
        · rw [hbe]
          exact le_of_lt (lt_of_not_le h)
        · exact hl.1 b hbt

theorem sortPairs_sorted [LinearOrder α] (d : PyDict α) :
    List.Sorted (fun a b : α × ℚ => a.1 ≤ b.1) (sortPairs d) := by
  induction d with
  | nil => simp [sortPairs]
  | cons e t ih =>
      rw [sortPairs, List.foldr_cons]
      exact insortPair_sorted e _ ih

theorem length_cumsumFrom (acc : ℚ) (l : List ℚ) :
    (cumsumFrom acc l).length = l.length := by
  induction l generalizing acc with
  | nil => rfl
  | cons x t ih => simp [cumsumFrom, ih]

theorem getLastD_cumsumFrom (acc d : ℚ) (l : List ℚ) (hl : l ≠ []) :
    (cumsumFrom acc l).getLastD d = acc + l.sum := by
  induction l generalizing acc d with
  | nil => exact absurd rfl hl
  | cons x t ih =>
      cases t with
      | nil => simp [cumsumFrom]
      | cons y s =>
          rw [cumsumFrom, List.getLastD_cons, ih (acc + x) _ (by simp)]
          simp
          ring

theorem mem_cumsumFrom_ge (acc : ℚ) (l : List ℚ) (h : ∀ x ∈ l, 0 ≤ x) :
    ∀ y ∈ cumsumFrom acc l, acc ≤ y := by
  induction l generalizing acc with
  | nil => simp [cumsumFrom]
  | cons x t ih =>
      intro y hy
      rw [cumsumFrom] at hy
      have hx : 0 ≤ x := h x (by simp)
      rcases List.mem_cons.mp hy with hy1 | hy2
      · rw [hy1]
        linarith
      · have := ih (acc + x) (fun z hz => h z (List.mem_cons_of_mem x hz)) y hy2
        linarith

theorem sorted_cumsumFrom (acc : ℚ) (l : List ℚ) (h : ∀ x ∈ l, 0 ≤ x) :
    List.Sorted (· ≤ ·) (cumsumFrom acc l) := by
  induction l generalizing acc with
  | nil => simp [cumsumFrom]
  | cons x t ih =>
      rw [cumsumFrom, List.sorted_cons]
      refine ⟨?_, ih (acc + x) (fun z hz => h z (List.mem_cons_of_mem x hz))⟩
      exact mem_cumsumFrom_ge (acc + x) t
        (fun z hz => h z (List.mem_cons_of_mem x hz))

theorem getLastD_map_div_aux (l : List ℚ) (c : ℚ) :
    ∀ d, (l.map (fun p => p / c)).getLastD (d / c) = l.getLastD d / c := by
  induction l with
  | nil => intro d; simp
  | cons x t ih =>
      intro d
      rw [List.map_cons, List.getLastD_cons, List.getLastD_cons, ih x]

theorem getLastD_map_div (l : List ℚ) (c : ℚ) (hl : l ≠ []) :
    (l.map (fun p => p / c)).getLastD 0 = l.getLastD 0 / c := by
  cases l with
  | nil => exact absurd rfl hl
  | cons x t =>
      rw [List.map_cons, List.getLastD_cons, List.getLastD_cons,
        getLastD_map_div_aux t c x]

theorem mem_dset (d : PyDict α) (x : α) (y : ℚ) :
    ∀ e ∈ dset d x y, e ∈ d ∨ e = (x, y) := by
  induction d with
  | nil => simp [dset]
  | cons f t ih =>
      intro e he
      by_cases hfx : f.1 = x
      · rw [show dset (f :: t) x y = (x, y) :: t by
            rw [← Prod.mk.eta (p := f), dset]
            simp [hfx]] at he
        rcases List.mem_cons.mp he with h1 | h2
        · exact Or.inr h1
        · exact Or.inl (List.mem_cons_of_mem f h2)
      · rw [show dset (f :: t) x y = f :: dset t x y by
            rw [← Prod.mk.eta (p := f), dset]
            simp [hfx]] at he
        rcases List.mem_cons.mp he with h1 | h2
        · exact Or.inl (by rw [h1]; exact List.mem_cons_self f t)
        · rcases ih e h2 with h3 | h4
          · exact Or.inl (List.mem_cons_of_mem f h3)
          · exact Or.inr h4

theorem dget_nonneg (d : PyDict α) (x : α) (h : ∀ e ∈ d, 0 ≤ e.2) :
    0 ≤ dget d x := by
  induction d with
  | nil => simp [dget]
  | cons f t ih =>
      rw [dget]
      by_cases hfx : f.1 = x
      · rw [if_pos hfx]
        exact h f (List.mem_cons_self f t)
      · rw [if_neg hfx]
        exact ih (fun e he => h e (List.mem_cons_of_mem f he))

theorem mem_dkeys_dset (d : PyDict α) (x : α) (y : ℚ) (z : α)
    (hz : z ∈ dkeys (dset d x y)) : z ∈ dkeys d ∨ z = x := by
  have : ∃ e ∈ dset d x y, e.1 = z := by
    rw [dkeys] at hz
    simpa using List.mem_map.mp hz
  obtain ⟨e, he, hez⟩ := this
  rcases mem_dset d x y e he with h1 | h2
  · exact Or.inl (by rw [dkeys, ← hez]; exact List.mem_map_of_mem Prod.fst h1)
  · exact Or.inr (by rw [← hez, h2])

theorem nodup_dkeys_dset (d : PyDict α) (x : α) (y : ℚ)
    (h : (dkeys d).Nodup) : (dkeys (dset d x y)).Nodup := by
  induction d with
  | nil => simp [dset, dkeys]
  | cons f t ih =>
      rw [dkeys, List.map_cons, List.nodup_cons] at h
      by_cases hfx : f.1 = x
      · rw [show dset (f :: t) x y = (x, y) :: t by
            rw [← Prod.mk.eta (p := f), dset]
            simp [hfx]]
        rw [dkeys, List.map_cons, List.nodup_cons]
        exact ⟨by rw [← hfx]; exact h.1, h.2⟩
      · rw [show dset (f :: t) x y = f :: dset t x y by
            rw [← Prod.mk.eta (p := f), dset]
            simp [hfx]]
        rw [dkeys, List.map_cons, List.nodup_cons]
        refine ⟨?_, ih h.2⟩
        intro hmem
        rcases mem_dkeys_dset t x y f.1 hmem with h1 | h2
        · exact h.1 h1
        · exact hfx h2

theorem counter_entries_nonneg_aux (l : List α) (acc : PyDict α)
    (hacc : ∀ e ∈ acc, 0 ≤ e.2) :
    ∀ e ∈ l.foldl (fun d x => dincr d x 1) acc, 0 ≤ e.2 := by
  induction l generalizing acc with
  | nil => exact hacc
  | cons x t ih =>
      rw [List.foldl_cons]
      refine ih (dincr acc x 1) ?_
      intro e he
      rcases mem_dset acc x (dget acc x + 1) e he with h1 | h2
      · exact hacc e h1
      · rw [h2]
        have := dget_nonneg acc x hacc
        simp only []
        linarith

theorem Counter_entries_nonneg (l : List α) : ∀ e ∈ Counter l, 0 ≤ e.2 := by
  rw [Counter]
  exact counter_entries_nonneg_aux l [] (by simp)

theorem Counter_nodup_aux (l : List α) (acc : PyDict α)
    (hacc : (dkeys acc).Nodup) :
    (dkeys (l.foldl (fun d x => dincr d x 1) acc)).Nodup := by
  induction l generalizing acc with
  | nil => exact hacc
  | cons x t ih =>
      rw [List.foldl_cons]
      exact ih (dincr acc x 1) (nodup_dkeys_dset acc x _ hacc)

theorem Counter_nodup (l : List α) : (dkeys (Counter l)).Nodup := by
  rw [Counter]
  exact Counter_nodup_aux l [] (by simp [dkeys])

theorem dget_Counter_aux (l : List α) (acc : PyDict α) (x : α) :
    dget (l.foldl (fun d e => dincr d e 1) acc) x
      = dget acc x + l.count x := by
  induction l generalizing acc with
  | nil => simp
  | cons e t ih =>
      rw [List.foldl_cons, ih (dincr acc e 1), dget_dincr]
      by_cases hex : e = x
      · rw [List.count_cons]
        simp [hex]
        ring
      · rw [List.count_cons]
        simp [hex]

/-- C6 note: merging of duplicate raw samples — the `Counter` entry at `x`
is the number of occurrences of `x`. -/
theorem dget_Counter (l : List α) (x : α) : dget (Counter l) x = l.count x := by
  rw [Counter, dget_Counter_aux]
  simp [dget]

theorem mkCdfOfDict_invariants [LinearOrder α] (d : PyDict α)
    (hnd : (dkeys d).Nodup) (hw : ∀ e ∈ d, 0 ≤ e.2) (ht : 0 < total d) :
    (mkCdfOfDict d).1.length = (mkCdfOfDict d).2.length
    ∧ List.Sorted (· < ·) (mkCdfOfDict d).1
    ∧ List.Sorted (· ≤ ·) (mkCdfOfDict d).2
    ∧ (mkCdfOfDict d).2.getLastD 0 = 1 := by
  have hdne : d ≠ [] := by
    intro h
    rw [h] at ht
    simp [total] at ht
  rw [mkCdfOfDict, if_neg hdne]
  have hperm : List.Perm (sortPairs d) d := sortPairs_perm d
  have hsne : sortPairs d ≠ [] := by
    have hlen := hperm.length_eq
    intro h
    rw [h] at hlen
    exact hdne (List.length_eq_zero.mp hlen.symm)
  have hfne : (sortPairs d).map Prod.snd ≠ [] := by
    simpa using hsne
  have hsw : ∀ x ∈ (sortPairs d).map Prod.snd, 0 ≤ x := by
    intro x hx
    obtain ⟨e, he, hex⟩ := List.mem_map.mp hx
    rw [← hex]
    exact hw e (hperm.mem_iff.mp he)
  have hsum : ((sortPairs d).map Prod.snd).sum = total d :=
    (hperm.map Prod.snd).sum_eq
  have hlast : (cumsum ((sortPairs d).map Prod.snd)).getLastD 0 = total d := by
    rw [cumsum, getLastD_cumsumFrom 0 0 _ hfne, hsum]
    ring
  have hcne : cumsum ((sortPairs d).map Prod.snd) ≠ [] := by
    rw [cumsum]
    intro h
    have := length_cumsumFrom 0 ((sortPairs d).map Prod.snd)
    rw [h] at this
    exact hfne (List.length_eq_zero.mp this.symm)
  refine ⟨?_, ?_, ?_, ?_⟩
  · simp [length_cumsumFrom, cumsum]
  · have hkeys : List.Sorted (· ≤ ·) ((sortPairs d).map Prod.fst) := by
      exact List.Pairwise.map Prod.fst (fun a b hab => hab) (sortPairs_sorted d)
    have hkeynd : ((sortPairs d).map Prod.fst).Nodup := by
      rw [List.Perm.nodup_iff (hperm.map Prod.fst)]
      exact hnd
    have := List.Pairwise.and hkeys hkeynd
    exact this.imp (fun hab => lt_of_le_of_ne hab.1 hab.2)
  · have hmono : List.Sorted (· ≤ ·)
        (cumsum ((sortPairs d).map Prod.snd)) := by
      rw [cumsum]
      exact sorted_cumsumFrom 0 _ hsw
    refine List.Pairwise.map _ ?_ hmono
    intro a b hab
    rw [hlast]
    exact (div_le_div_iff_of_pos_right ht).mpr hab
  · rw [getLastD_map_div _ _ hcne, hlast]
    exact div_self ht.ne'

/-- C6 amended: every Cdf built from a weighted map whose weights are all
nonnegative with positive total — which includes every Cdf built from a
non-empty raw sequence, whose Counter weights are positive counts — has
`xs` strictly ascending, `ps` non-decreasing, `len(xs) == len(ps)`, and
final cumulative probability exactly 1; duplicates in a raw sequence are
merged by summing (counting) before the cumulative pass.  (For a weighted
map with a negative weight, as produced e.g. by `Hist.Subtract`, the
non-decreasing invariant fails.) -/
theorem cdf_construction_invariants [LinearOrder α] (d : PyDict α)
    (l : List α) (hnd : (dkeys d).Nodup) (hw : ∀ e ∈ d, 0 ≤ e.2)
    (ht : 0 < total d) (hl : l ≠ []) :
    ((mkCdfOfDict d).1.length = (mkCdfOfDict d).2.length
      ∧ List.Sorted (· < ·) (mkCdfOfDict d).1
      ∧ List.Sorted (· ≤ ·) (mkCdfOfDict d).2
      ∧ (mkCdfOfDict d).2.getLastD 0 = 1)
    ∧ ((mkCdfOfList l).1.length = (mkCdfOfList l).2.length
      ∧ List.Sorted (· < ·) (mkCdfOfList l).1
      ∧ List.Sorted (· ≤ ·) (mkCdfOfList l).2
      ∧ (mkCdfOfList l).2.getLastD 0 = 1)
    ∧ (∀ x, dget (Counter l) x = l.count x) := by
  refine ⟨mkCdfOfDict_invariants d hnd hw ht, ?_, fun x => dget_Counter l x⟩
  rw [mkCdfOfList]
  refine mkCdfOfDict_invariants (Counter l) (Counter_nodup l)
    (Counter_entries_nonneg l) ?_
  rw [total_Counter]
  exact_mod_cast List.length_pos.mpr hl

/-- Witness for C6 amended: an unsorted two-key weight map and the raw
sample `[5, 5, 7]`. -/
theorem cdf_construction_invariants_witness :
    List.Sorted (· < ·) (mkCdfOfDict [((2 : ℚ), 1), (1, 3)]).1
    ∧ (mkCdfOfList [(5 : ℚ), 5, 7]).2.getLastD 0 = 1
    ∧ dget (Counter [(5 : ℚ), 5, 7]) 5 = 2 := by
  have h := cdf_construction_invariants [((2 : ℚ), 1), (1, 3)]
    [(5 : ℚ), 5, 7] (by simp [dkeys]) ?_ (by norm_num [total]) (by simp)
  · refine ⟨h.1.2.1, h.2.1.2.2.2, ?_⟩
    rw [h.2.2 5]
    simp
  · intro e he
    simp only [List.mem_cons, List.not_mem_nil, or_false] at he
    rcases he with h1 | h1 <;> rw [h1] <;> norm_num

/-- The multiplication sweep of `Suite.Update` (lines 1404-1406):
`for hypo in self.Values(): self.Mult(hypo, self.Likelihood(data, hypo))`. -/
def UpdateStep (like : δ → α → ℚ) (data : δ) (d : PyDict α) : PyDict α :=
  d.map (fun e => (e.1, e.2 * like data e.1))

/-- `Suite.Update` (lines 1397-1407): multiply every hypothesis by its
likelihood, then `return self.Normalize()`. -/
def Suite.Update (like : δ → α → ℚ) (data : δ) (s : Pmf α) :
    Except Err (Pmf α × ℚ) :=
  Pmf.Normalize ⟨UpdateStep like data s.d, s.log⟩ 1

/-- Sequential `Update` calls over a dataset, one normalization each. -/
def Suite.UpdateSeq (like : δ → α → ℚ) : List δ → Pmf α → Except Err (Pmf α)
  | [], s => .ok s
  | data :: ds, s =>
      match Suite.Update like data s with
      | .error e => .error e
      | .ok (s1, _) => Suite.UpdateSeq like ds s1

/-- `Suite.UpdateSet` (lines 1424-1441): multiply through the whole dataset
first, then `return self.Normalize()` once. -/
def Suite.UpdateSet (like : δ → α → ℚ) (ds : List δ) (s : Pmf α) :
    Except Err (Pmf α × ℚ) :=
  Pmf.Normalize ⟨ds.foldl (fun d data => UpdateStep like data d) s.d, s.log⟩ 1

/-- Product of the likelihoods of a dataset at a fixed hypothesis. -/
def likeProd (like : δ → α → ℚ) (ds : List δ) (h : α) : ℚ :=
  (ds.map (fun data => like data h)).prod

theorem dscale_one (d : PyDict α) : dscale d 1 = d := by
  simp [dscale]

theorem dscale_dscale (d : PyDict α) (a b : ℚ) :
    dscale (dscale d a) b = dscale d (a * b) := by
  simp only [dscale, List.map_map]
  refine List.map_congr_left ?_
  intro e he
  simp [Function.comp, mul_assoc]

theorem updateStep_dscale (like : δ → α → ℚ) (data : δ) (d : PyDict α)
    (c : ℚ) :
    UpdateStep like data (dscale d c) = dscale (UpdateStep like data d) c := by
  simp only [UpdateStep, dscale, List.map_map]
  refine List.map_congr_left ?_
  intro e he
  simp [Function.comp]
  ring

theorem foldl_updateStep_dscale (like : δ → α → ℚ) (ds : List δ)
    (d : PyDict α) (c : ℚ) :
    ds.foldl (fun d2 data => UpdateStep like data d2) (dscale d c)
      = dscale (ds.foldl (fun d2 data => UpdateStep like data d2) d) c := by
  induction ds generalizing d with
  | nil => rfl
  | cons data t ih =>
      rw [List.foldl_cons, List.foldl_cons, updateStep_dscale, ih]

theorem foldl_updateStep_eq_map (like : δ → α → ℚ) (ds : List δ)
    (d : PyDict α) :
    ds.foldl (fun d2 data => UpdateStep like data d2) d
      = d.map (fun e => (e.1, e.2 * likeProd like ds e.1)) := by
  induction ds generalizing d with
  | nil => simp [likeProd]
  | cons data t ih =>
      rw [List.foldl_cons, ih, UpdateStep, List.map_map]
      refine List.map_congr_left ?_
      intro e he
      simp [Function.comp, likeProd]
      ring

theorem likeProd_nonneg (like : δ → α → ℚ) (ds : List δ) (h : α)
    (hlike : ∀ data h2, 0 ≤ like data h2) : 0 ≤ likeProd like ds h := by
  rw [likeProd]
  induction ds with
  | nil => simp
  | cons data t ih =>
      rw [List.map_cons, List.prod_cons]
      exact mul_nonneg (hlike data h) ih

theorem updateStep_nonneg (like : δ → α → ℚ) (data : δ) (d : PyDict α)
    (hw : ∀ e ∈ d, 0 ≤ e.2) (hlike : ∀ data2 h2, 0 ≤ like data2 h2) :
    ∀ e ∈ UpdateStep like data d, 0 ≤ e.2 := by
  intro e he
  obtain ⟨f, hf, hfe⟩ := List.mem_map.mp he
  rw [← hfe]
  exact mul_nonneg (hw f hf) (hlike data f.1)

theorem dscale_nonneg (d : PyDict α) (c : ℚ) (hw : ∀ e ∈ d, 0 ≤ e.2)
    (hc : 0 ≤ c) : ∀ e ∈ dscale d c, 0 ≤ e.2 := by
  intro e he
  obtain ⟨f, hf, hfe⟩ := List.mem_map.mp he
  rw [← hfe]
  exact mul_nonneg (hw f hf) hc

theorem total_updateStep_pos (like : δ → α → ℚ) (ds : List δ) (d : PyDict α)
    (hw : ∀ e ∈ d, 0 ≤ e.2) (hlike : ∀ data h2, 0 ≤ like data h2)
    (htot : total (ds.foldl (fun d2 data => UpdateStep like data d2) d) ≠ 0) :
    0 < total d := by
  rw [foldl_updateStep_eq_map] at htot
  have hex : ∃ e ∈ d, e.2 * likeProd like ds e.1 ≠ 0 := by
    by_contra hall
    push_neg at hall
    refine htot ?_
    rw [total, List.map_map]
    refine List.sum_eq_zero ?_
    intro x hx
    obtain ⟨e, he, hex⟩ := List.mem_map.mp hx
    rw [← hex]
    exact hall e he
  obtain ⟨e, he, hne⟩ := hex
  have he2 : 0 < e.2 :=
    lt_of_le_of_ne (hw e he) (fun h => hne (by rw [← h]; ring))
  have hle : e.2 ≤ total d := by
    rw [total]
    exact List.single_le_sum
      (fun x hx => by
        obtain ⟨f, hf, hfx⟩ := List.mem_map.mp hx
        rw [← hfx]
        exact hw f hf)
      e.2 (List.mem_map_of_mem Prod.snd he)
  linarith

theorem normalize_ok (p : Pmf α) (f : ℚ) (hlog : p.log = false)
    (ht : total p.d ≠ 0) :
    Pmf.Normalize p f = .ok (⟨dscale p.d (f / total p.d), false⟩, total p.d) := by
  rw [Pmf.Normalize]
  simp [hlog, ht]

theorem normalize_ok_iff (p : Pmf α) (f : ℚ) (q : Pmf α) (c : ℚ)
    (hlog : p.log = false) :
    Pmf.Normalize p f = .ok (q, c)
      ↔ total p.d ≠ 0
        ∧ (⟨dscale p.d (f / total p.d), false⟩ : Pmf α) = q
        ∧ total p.d = c := by
  constructor
  · intro h
    by_cases ht : total p.d = 0
    · rw [Pmf.Normalize] at h
      simp [hlog, ht] at h
    · rw [normalize_ok p f hlog ht] at h
      obtain ⟨h1, h2⟩ := Prod.mk.injEq .. ▸ Except.ok.inj h
      exact ⟨ht, h1, h2⟩
  · rintro ⟨ht, h1, h2⟩
    rw [normalize_ok p f hlog ht, h1, h2]

/-- C7: for every Suite (normalized, nonnegative weights, not under a log
transform) with a concrete nonnegative likelihood function and every
dataset, whenever `UpdateSet(dataset)` succeeds it yields exactly the
posterior that sequential `Update(data)` calls yield; the two paths differ
only in when normalization is performed. -/
theorem suite_updateset_eq_sequential (like : δ → α → ℚ) (ds : List δ)
    (s s2 : Pmf α) (c : ℚ)
    (hlog : s.log = false) (htot : total s.d = 1)
    (hw : ∀ e ∈ s.d, 0 ≤ e.2) (hlike : ∀ data h2, 0 ≤ like data h2)
    (hok : Suite.UpdateSet like ds s = .ok (s2, c)) :
    Suite.UpdateSeq like ds s = .ok s2 := by
  induction ds generalizing s s2 c with
  | nil =>
      rw [Suite.UpdateSeq]
      rw [Suite.UpdateSet, List.foldl_nil] at hok
      obtain ⟨hne, hs2, hc⟩ :=
        (normalize_ok_iff ⟨s.d, s.log⟩ 1 s2 c hlog).mp hok
      rw [← hs2, htot]
      norm_num [dscale_one]
      cases s with
      | mk d log => simp only [] at hlog ⊢; rw [hlog]
  | cons d1 t ih =>
      rw [Suite.UpdateSet, List.foldl_cons] at hok
      obtain ⟨hFne, hs2, hc⟩ :=
        (normalize_ok_iff
          ⟨t.foldl (fun d2 data => UpdateStep like data d2)
            (UpdateStep like d1 s.d), s.log⟩ 1 s2 c hlog).mp hok
      dsimp only at hFne hs2 hc
      have hm : ∀ e ∈ UpdateStep like d1 s.d, 0 ≤ e.2 :=
        updateStep_nonneg like d1 s.d hw hlike
      have hT1 : 0 < total (UpdateStep like d1 s.d) :=
        total_updateStep_pos like t (UpdateStep like d1 s.d) hm hlike hFne
      have hstep : Suite.Update like d1 s
          = .ok (⟨dscale (UpdateStep like d1 s.d)
              (1 / total (UpdateStep like d1 s.d)), false⟩,
            total (UpdateStep like d1 s.d)) := by
        rw [Suite.Update]
        exact normalize_ok ⟨UpdateStep like d1 s.d, s.log⟩ 1 hlog hT1.ne'
      have hseq : Suite.UpdateSeq like (d1 :: t) s
          = Suite.UpdateSeq like t
              ⟨dscale (UpdateStep like d1 s.d)
                (1 / total (UpdateStep like d1 s.d)), false⟩ := by
        rw [Suite.UpdateSeq, hstep]
      rw [hseq]
      have hk : (1 / total (UpdateStep like d1 s.d)) ≠ 0 := by
        rw [one_div]
        exact inv_ne_zero hT1.ne'
      have htne : total (dscale
          (t.foldl (fun d2 data => UpdateStep like data d2)
            (UpdateStep like d1 s.d))
          (1 / total (UpdateStep like d1 s.d))) ≠ 0 := by
        rw [total_dscale]
        exact mul_ne_zero hFne hk
      refine ih ⟨dscale (UpdateStep like d1 s.d)
          (1 / total (UpdateStep like d1 s.d)), false⟩ s2
        (total (t.foldl (fun d2 data => UpdateStep like data d2)
            (UpdateStep like d1 s.d))
          * (1 / total (UpdateStep like d1 s.d))) rfl ?_ ?_ ?_
      · show total (dscale (UpdateStep like d1 s.d)
            (1 / total (UpdateStep like d1 s.d))) = 1
        rw [total_dscale]
        field_simp
      · exact dscale_nonneg _ _ hm (by positivity)
      · show Pmf.Normalize
            ⟨t.foldl (fun d2 data => UpdateStep like data d2)
              (dscale (UpdateStep like d1 s.d)
                (1 / total (UpdateStep like d1 s.d))), false⟩ 1
            = Except.ok (s2,
                total (t.foldl (fun d2 data => UpdateStep like data d2)
                  (UpdateStep like d1 s.d))
                * (1 / total (UpdateStep like d1 s.d)))
        rw [foldl_updateStep_dscale like t (UpdateStep like d1 s.d) _]
        rw [normalize_ok _ 1 rfl htne]
        dsimp only
        rw [total_dscale]
        have harg : (1 / total (UpdateStep like d1 s.d))
            * (1 / (total (t.foldl (fun d2 data => UpdateStep like data d2)
                (UpdateStep like d1 s.d))
              * (1 / total (UpdateStep like d1 s.d))))
            = 1 / total (t.foldl (fun d2 data => UpdateStep like data d2)
                (UpdateStep like d1 s.d)) := by
          field_simp
        rw [dscale_dscale, harg, hs2]

/-- Witness for C7 at a two-hypothesis suite, likelihood
`h^2 + data^2`, dataset `[1, 2]`: the sequential path lands on the batched
posterior `{0: 2/7, 1: 5/7}`. -/
theorem suite_updateset_eq_sequential_witness :
    Suite.UpdateSeq (fun (data h : ℚ) => h ^ 2 + data ^ 2) [1, 2]
      ⟨[(0, 1/2), (1, 1/2)], false⟩
      = .ok ⟨[(0, 2/7), (1, 5/7)], false⟩ := by
  refine suite_updateset_eq_sequential (fun (data h : ℚ) => h ^ 2 + data ^ 2)
    [1, 2] ⟨[(0, 1/2), (1, 1/2)], false⟩ ⟨[(0, 2/7), (1, 5/7)], false⟩ 7
    rfl (by norm_num [total]) ?_ ?_ ?_
  · intro e he
    simp only [List.mem_cons, List.not_mem_nil, or_false] at he
    rcases he with h1 | h1 <;> rw [h1] <;> norm_num
  · intro data h2
    positivity
  · norm_num [Suite.UpdateSet, Pmf.Normalize, UpdateStep, total, dscale]

/-- Insert into an ascending list of times. -/
def insortQ (x : ℚ) : List ℚ → List ℚ
  | [] => [x]
  | y :: t => if x ≤ y then x :: y :: t else y :: insortQ x t

/-- `ts.sort()` (line 4251). -/
def sortQ (l : List ℚ) : List ℚ :=
  l.foldr insortQ []

/-- `ts = list(hist_complete | hist_ongoing); ts.sort()` (lines 4247-4251):
the distinct observed times (keys of the Counter union), ascending. -/
def kmTimes (complete ongoing : List ℚ) : List ℚ :=
  sortQ (dkeys (Counter (complete ++ ongoing)))

/-- The loop of `EstimateHazardFunction` (lines 4256-4263): walk the sorted
times; at each time `t` record `hazard(t) = ended / at_risk` and then
decrement `at_risk` by `ended + censored`.  (`at_risk` is a Python int,
modelled as `ℤ`; in every reachable state it is positive at each step.) -/
def hazardGo (complete ongoing : List ℚ) : List ℚ → ℤ → List (ℚ × ℚ)
  | [], _ => []
  | t :: rest, atRisk =>
      (t, (complete.count t : ℚ) / (atRisk : ℚ)) ::
        hazardGo complete ongoing rest
          (atRisk - ((complete.count t : ℤ) + (ongoing.count t : ℤ)))

/-- `EstimateHazardFunction(complete, ongoing)` (lines 4232-4265):
`at_risk` starts at `len(complete) + len(ongoing)`; the result maps each
distinct time to its hazard. -/
def EstimateHazardFunction (complete ongoing : List ℚ) : List (ℚ × ℚ) :=
  hazardGo complete ongoing (kmTimes complete ongoing)
    ((complete.length : ℤ) + (ongoing.length : ℤ))

/-- `np.cumprod` with a running accumulator. -/
def cumprodFrom (acc : ℚ) : List ℚ → List ℚ
  | [] => []
  | x :: t => (acc * x) :: cumprodFrom (acc * x) t

/-- `HazardFunction.MakeSurvival` (lines 4124-4132):
`ss = (1 - self.series).cumprod()` over the hazard's times. -/
def MakeSurvival (lams : List (ℚ × ℚ)) : List ℚ × List ℚ :=
  (lams.map Prod.fst, cumprodFrom 1 (lams.map (fun e => 1 - e.2)))

/-- The scan of `np.interp` past the first sample point: at or beyond the
last point return its value, otherwise interpolate linearly. -/
def interpGo (t : ℚ) (x0 y0 : ℚ) : List (ℚ × ℚ) → ℚ
  | [] => y0
  | (x1, y1) :: rest =>
      if t < x1 then y0 + (y1 - y0) * (t - x0) / (x1 - x0)
      else interpGo t x1 y1 rest

/-- `SurvivalFunction.Prob` (lines 3993-3998):
`np.interp(t, self.ts, self.ss, left=1.0)` — 1 to the left of the first
time, the last survival value to the right of the last time, linear
interpolation (exact at the sample points) in between.  (`np.interp`
raises on an empty `ts`; this embedding is only applied to non-empty
survival curves.) -/
def SurvivalProb (ts ss : List ℚ) (t : ℚ) : ℚ :=
  match ts.zip ss with
  | [] => 1
  | (x0, y0) :: rest => if t < x0 then 1 else interpGo t x0 y0 rest

/-- The at-risk count before processing the `i`-th distinct time: the
initial `len(complete) + len(ongoing)` minus all events and censorings at
the earlier distinct times. -/
def atRiskAt (complete ongoing : List ℚ) (i : ℕ) : ℤ :=
  (complete.length : ℤ) + (ongoing.length : ℤ)
    - (((kmTimes complete ongoing).take i).map
        (fun t => (complete.count t : ℤ) + (ongoing.count t : ℤ))).sum

theorem length_hazardGo (complete ongoing : List ℚ) (ts : List ℚ) (a : ℤ) :
    (hazardGo complete ongoing ts a).length = ts.length := by
  induction ts generalizing a with
  | nil => rfl
  | cons t rest ih => simp [hazardGo, ih]

theorem hazardGo_getD (complete ongoing : List ℚ) (ts : List ℚ) (a : ℤ)
    (i : ℕ) (hi : i < ts.length) :
    (hazardGo complete ongoing ts a).getD i (0, 0)
      = (ts.getD i 0,
         (complete.count (ts.getD i 0) : ℚ)
           / ((a - ((ts.take i).map
                (fun t => (complete.count t : ℤ) + (ongoing.count t : ℤ))).sum
              : ℤ) : ℚ)) := by
  induction ts generalizing a i with
  | nil => exact absurd hi (by simp)
  | cons t rest ih =>
      cases i with
      | zero => simp [hazardGo]
      | succ j =>
          have hj : j < rest.length := by
            simpa using Nat.lt_of_succ_lt_succ hi
          rw [hazardGo]
          rw [List.getD_cons_succ, List.getD_cons_succ]
          rw [ih (a - ((complete.count t : ℤ) + (ongoing.count t : ℤ))) j hj]
          rw [List.take_succ_cons, List.map_cons, List.sum_cons]
          congr 2
          push_cast
          ring

/-- C2: `EstimateHazardFunction` walks the distinct observed times in
ascending order with an at-risk count initialized to
`len(complete) + len(ongoing)`; the hazard recorded at the `i`-th time `t`
is `(events exactly at t) / (at-risk count after removing all events and
censorings at earlier times)`; and on `complete = [1, 2, 2, 3]`,
`ongoing = []` the hazards are `[1/4, 2/3, 1]` and the survival function
from `MakeSurvival` is the plain empirical curve `S(0) = 1, S(1) = 3/4,
S(2) = 1/4, S(3) = 0`. -/
theorem estimate_hazard_spec (complete ongoing : List ℚ) (i : ℕ)
    (hi : i < (kmTimes complete ongoing).length) :
    (EstimateHazardFunction complete ongoing).length
        = (kmTimes complete ongoing).length
    ∧ (EstimateHazardFunction complete ongoing).getD i (0, 0)
        = ((kmTimes complete ongoing).getD i 0,
           (complete.count ((kmTimes complete ongoing).getD i 0) : ℚ)
             / ((atRiskAt complete ongoing i : ℤ) : ℚ))
    ∧ EstimateHazardFunction [1, 2, 2, 3] [] = [(1, 1/4), (2, 2/3), (3, 1)]
    ∧ MakeSurvival (EstimateHazardFunction [1, 2, 2, 3] [])
        = ([1, 2, 3], [3/4, 1/4, 0])
    ∧ SurvivalProb [1, 2, 3] [3/4, 1/4, 0] 0 = 1
    ∧ SurvivalProb [1, 2, 3] [3/4, 1/4, 0] 1 = 3/4
    ∧ SurvivalProb [1, 2, 3] [3/4, 1/4, 0] 2 = 1/4
    ∧ SurvivalProb [1, 2, 3] [3/4, 1/4, 0] 3 = 0 := by
  have hconc : EstimateHazardFunction [1, 2, 2, 3] []
      = [(1, 1/4), (2, 2/3), (3, 1)] := by
    norm_num [EstimateHazardFunction, kmTimes, sortQ, insortQ, Counter,
      dincr, dset, dget, dkeys, hazardGo, List.count_cons]
  refine ⟨length_hazardGo complete ongoing _ _, ?_, hconc, ?_, ?_, ?_, ?_, ?_⟩
  · rw [EstimateHazardFunction, hazardGo_getD complete ongoing _ _ i hi,
      atRiskAt]
  · rw [hconc]
    norm_num [MakeSurvival, cumprodFrom]
  · norm_num [SurvivalProb, interpGo]
  · norm_num [SurvivalProb, interpGo]
  · norm_num [SurvivalProb, interpGo]
  · norm_num [SurvivalProb, interpGo]

/-- Witness for C2 at `complete = [1, 2, 2, 3]`, `ongoing = []`, `i = 1`:
the middle hazard is `2 / 3` (2 events among 3 still at risk). -/
theorem estimate_hazard_spec_witness :
    (EstimateHazardFunction [1, 2, 2, 3] []).getD 1 (0, 0) = (2, 2/3)
    ∧ SurvivalProb [1, 2, 3] [3/4, 1/4, 0] 1 = 3/4 := by
  have h := estimate_hazard_spec [1, 2, 2, 3] [] 1
    (by norm_num [kmTimes, sortQ, insortQ, Counter, dincr, dset, dget, dkeys])
  refine ⟨?_, h.2.2.2.2.2.1⟩
  rw [h.2.1]
  norm_num [kmTimes, sortQ, insortQ, Counter, dincr, dset, dget, dkeys,
    atRiskAt, List.count_cons]

end ThinkStats
